import Mathlib

/-!
Verification of the attendance-reconciliation engine of scriptAsist.py.

The development shallowly embeds the three core components of the source
file — the duration converter (convert_duration_to_hours), the name
normalizer (normalize_name), the fuzzy matcher (find_matching_name) and
the per-student reconciliation loop of process_attendance — as executable
Lean functions over List Char / String, with Python floats modelled as
rationals and Python exceptions modelled as Except Unit.

Model restrictions (documented where they apply):
* the whitespace class is the six ASCII whitespace characters recognised
  both by str.strip and by the regex class used in the source (the rarely
  used extra Unicode whitespace code points are outside the model);
* str.upper is modelled character-wise over ASCII letters and the Latin-1
  accented letters (the multi-character expansion of the German sharp s
  and the Greek micro sign are outside the model);
* float(...) is modelled on plain decimal literals with optional sign and
  fractional part (exponent, inf/nan and underscore forms are outside the
  model); parse failure is the ValueError path, modelled as Except.error.
-/

/-- The whitespace characters recognised by the source's strip / regex
whitespace class (space, tab, newline, carriage return, vertical tab,
form feed). -/
def isPySpace (c : Char) : Bool :=
  c == ' ' || c == '\t' || c == '\n' || c == '\r' || c == '\x0b' || c == '\x0c'

/-- The six punctuation characters deleted by normalize_name's second
regex substitution: period, comma, semicolon, colon, apostrophe,
double quote. -/
def isPunctChar (c : Char) : Bool :=
  c == '.' || c == ',' || c == ';' || c == ':' || c == '\'' || c == '"'

/-- Lowercase-to-uppercase pairs of str.upper restricted to ASCII letters
and Latin-1 accented letters (the character-wise fragment relevant to the
names handled by the program). -/
def upperPairs : List (Char × Char) :=
  [('a', 'A'), ('b', 'B'), ('c', 'C'), ('d', 'D'), ('e', 'E'), ('f', 'F'),
   ('g', 'G'), ('h', 'H'), ('i', 'I'), ('j', 'J'), ('k', 'K'), ('l', 'L'),
   ('m', 'M'), ('n', 'N'), ('o', 'O'), ('p', 'P'), ('q', 'Q'), ('r', 'R'),
   ('s', 'S'), ('t', 'T'), ('u', 'U'), ('v', 'V'), ('w', 'W'), ('x', 'X'),
   ('y', 'Y'), ('z', 'Z'),
   ('à', 'À'), ('á', 'Á'), ('â', 'Â'), ('ã', 'Ã'), ('ä', 'Ä'), ('å', 'Å'),
   ('æ', 'Æ'), ('ç', 'Ç'), ('è', 'È'), ('é', 'É'), ('ê', 'Ê'), ('ë', 'Ë'),
   ('ì', 'Ì'), ('í', 'Í'), ('î', 'Î'), ('ï', 'Ï'), ('ð', 'Ð'), ('ñ', 'Ñ'),
   ('ò', 'Ò'), ('ó', 'Ó'), ('ô', 'Ô'), ('õ', 'Õ'), ('ö', 'Ö'), ('ø', 'Ø'),
   ('ù', 'Ù'), ('ú', 'Ú'), ('û', 'Û'), ('ü', 'Ü'), ('ý', 'Ý'), ('þ', 'Þ'),
   ('ÿ', 'Ÿ')]

/-- Character-wise model of str.upper (see upperPairs). -/
def pyUpperChar (c : Char) : Char :=
  match upperPairs.find? (fun p => p.1 == c) with
  | some p => p.2
  | none => c

/-- str.upper on a whole string, character-wise. -/
def pyUpperS (s : String) : String :=
  ⟨s.data.map pyUpperChar⟩

/-- Drop leading whitespace (the left half of str.strip). -/
def dropLeadWs (l : List Char) : List Char :=
  l.dropWhile isPySpace

/-- Drop trailing whitespace (the right half of str.strip). -/
def dropTrailWs (l : List Char) : List Char :=
  (l.reverse.dropWhile isPySpace).reverse

/-- str.strip(): remove leading and trailing whitespace. -/
def pyStripL (l : List Char) : List Char :=
  dropTrailWs (dropLeadWs l)

/-- str.strip() on a String. -/
def pyStripS (s : String) : String :=
  ⟨pyStripL s.data⟩

/-- State machine for the substitution of every whitespace run by a single
space (the first regex substitution in normalize_name); the flag records
whether the previous character belonged to a whitespace run. -/
def collapseWsAux : Bool → List Char → List Char
  | _, [] => []
  | prevWs, c :: rest =>
    if isPySpace c then
      if prevWs then collapseWsAux true rest
      else ' ' :: collapseWsAux true rest
    else c :: collapseWsAux false rest

/-- Replace every maximal whitespace run by a single space. -/
def collapseWs (l : List Char) : List Char :=
  collapseWsAux false l

/-- State machine for str.split() with no argument: words are maximal
runs of non-whitespace characters; the accumulator holds the current
word reversed. -/
def splitWsAux : List Char → List Char → List (List Char)
  | cur, [] => if cur = [] then [] else [cur.reverse]
  | cur, c :: rest =>
    if isPySpace c then
      if cur = [] then splitWsAux [] rest
      else cur.reverse :: splitWsAux [] rest
    else splitWsAux (c :: cur) rest

/-- str.split() with no argument: whitespace-delimited words. -/
def splitWs (l : List Char) : List (List Char) :=
  splitWsAux [] l

/-- State machine for str.split(' '): split at every single space,
keeping empty fields. -/
def pySplitSpAux : List Char → List Char → List (List Char)
  | cur, [] => [cur.reverse]
  | cur, c :: rest =>
    if c = ' ' then cur.reverse :: pySplitSpAux [] rest
    else pySplitSpAux (c :: cur) rest

/-- str.split(' ') on a String, as in convert_duration_to_hours. -/
def pySplitSpace (s : String) : List String :=
  (pySplitSpAux [] s.data).map String.mk

/-- Numeric value of a digit string (auxiliary to the float model). -/
def digitsToNat (l : List Char) : ℕ :=
  l.foldl (fun a c => 10 * a + (c.toNat - 48)) 0

/-- Shared body of the float model: parse an unsigned decimal literal and
apply the sign; Except.error is Python's ValueError. -/
def pyFloatCore (u : List Char) (sign : ℚ) : Except Unit ℚ :=
  let ip := u.takeWhile (fun c => c ≠ '.')
  let rest := u.dropWhile (fun c => c ≠ '.')
  match rest with
  | [] =>
    if ip ≠ [] ∧ ip.all Char.isDigit then .ok (sign * (digitsToNat ip : ℚ))
    else .error ()
  | _ :: fp =>
    if (ip ++ fp) ≠ [] ∧ ip.all Char.isDigit ∧ fp.all Char.isDigit then
      .ok (sign * ((digitsToNat ip : ℚ) + (digitsToNat fp : ℚ) / (10 : ℚ) ^ fp.length))
    else .error ()

/-- Model of Python float(s) on decimal literals (see the model
restrictions in the file header). -/
def pyFloat (s : String) : Except Unit ℚ :=
  match pyStripL s.data with
  | '+' :: r => pyFloatCore r 1
  | '-' :: r => pyFloatCore r (-1)
  | r => pyFloatCore r 1

/-- Substring containment of a pattern in a list of characters, as the
Python operator in tests it on strings. -/
def isPrefixOfL : List Char → List Char → Bool
  | [], _ => true
  | _ :: _, [] => false
  | a :: as, b :: bs => a == b && isPrefixOfL as bs

/-- True when pat occurs as a contiguous substring. -/
def containsSubL (pat : List Char) : List Char → Bool
  | [] => pat.isEmpty
  | l@(_ :: rest) => isPrefixOfL pat l || containsSubL pat rest

/-- convert_duration_to_hours from the source: split the text at single
spaces; if there are at least two fields and the second contains the
letter h, the first field is parsed as the hours; if there are at least
four fields and the fourth contains the substring min, the third field is
parsed as the minutes; the result is hours + minutes / 60.  The pd.isna
guard of the source is omitted because a string read from the csv module
is never NA.  A non-numeric field in a parsed position raises ValueError,
modelled as Except.error. -/
def convert_duration_to_hours (s : String) : Except Unit ℚ :=
  let parts := pySplitSpace s
  match parts with
  | p0 :: p1 :: rest =>
    let hoursE : Except Unit ℚ :=
      if 'h' ∈ p1.data then pyFloat p0 else .ok 0
    let minutesE : Except Unit ℚ :=
      match rest with
      | p2 :: p3 :: _ =>
        if containsSubL ['m', 'i', 'n'] p3.data then pyFloat p2 else .ok 0
      | _ => .ok 0
    match hoursE with
    | .error e => .error e
    | .ok h =>
      match minutesE with
      | .error e => .error e
      | .ok m => .ok (h + m / 60)
  | _ => .ok 0

/-! ### Splitting lemmas for the duration text -/

theorem pySplitSpAux_nil (cur : List Char) : pySplitSpAux cur [] = [cur.reverse] := rfl

theorem pySplitSpAux_space (cur rest : List Char) :
    pySplitSpAux cur (' ' :: rest) = cur.reverse :: pySplitSpAux [] rest := rfl

theorem pySplitSpAux_nonspace (c : Char) (hc : c ≠ ' ') (cur rest : List Char) :
    pySplitSpAux cur (c :: rest) = pySplitSpAux (c :: cur) rest := by
  simp [pySplitSpAux, hc]

theorem pySplitSpAux_append_chunk (a : List Char) (ha : ∀ c ∈ a, c ≠ ' ')
    (cur rest : List Char) :
    pySplitSpAux cur (a ++ rest) = pySplitSpAux (a.reverse ++ cur) rest := by
  induction a generalizing cur with
  | nil => simp
  | cons c a' ih =>
    have hc : c ≠ ' ' := ha c (by simp)
    rw [List.cons_append, pySplitSpAux_nonspace c hc,
      ih (fun d hd => ha d (by simp [hd])) (c :: cur)]
    simp

theorem pySplitSpAux_full (lh lm : List Char) (h1 : ∀ c ∈ lh, c ≠ ' ')
    (h2 : ∀ c ∈ lm, c ≠ ' ') :
    pySplitSpAux [] (lh ++ ([' ', 'h', ' '] ++ (lm ++ [' ', 'm', 'i', 'n'])))
      = [lh, ['h'], lm, ['m', 'i', 'n']] := by
  rw [pySplitSpAux_append_chunk lh h1]
  simp only [List.cons_append, List.nil_append]
  rw [pySplitSpAux_space, pySplitSpAux_nonspace 'h' (by decide), pySplitSpAux_space,
    pySplitSpAux_append_chunk lm h2,
    pySplitSpAux_space, pySplitSpAux_nonspace 'm' (by decide),
    pySplitSpAux_nonspace 'i' (by decide), pySplitSpAux_nonspace 'n' (by decide),
    pySplitSpAux_nil]
  simp

theorem pySplitSpace_pattern (hs ms : String) (h1 : ∀ c ∈ hs.data, c ≠ ' ')
    (h2 : ∀ c ∈ ms.data, c ≠ ' ') :
    pySplitSpace (hs ++ " h " ++ ms ++ " min") = [hs, "h", ms, "min"] := by
  obtain ⟨lh⟩ := hs
  obtain ⟨lm⟩ := ms
  have hd : (String.mk lh ++ " h " ++ String.mk lm ++ " min").data
      = lh ++ ([' ', 'h', ' '] ++ (lm ++ [' ', 'm', 'i', 'n'])) := by
    rw [String.data_append, String.data_append, String.data_append]
    simp
  unfold pySplitSpace
  rw [hd, pySplitSpAux_full lh lm h1 h2]
  rfl

theorem pySplitSpace_pattern_hours (hs : String) (h1 : ∀ c ∈ hs.data, c ≠ ' ') :
    pySplitSpace (hs ++ " h") = [hs, "h"] := by
  obtain ⟨lh⟩ := hs
  have hd : (String.mk lh ++ " h").data = lh ++ [' ', 'h'] := by
    rw [String.data_append]
  unfold pySplitSpace
  rw [hd, pySplitSpAux_append_chunk lh h1, pySplitSpAux_space,
    pySplitSpAux_nonspace 'h' (by decide), pySplitSpAux_nil]
  simp

/-- Helper: on a well-formed duration text the converter returns
hours + minutes / 60. -/
theorem convert_pattern (hs ms : String) (h m : ℚ) (h1 : ∀ c ∈ hs.data, c ≠ ' ')
    (h2 : ∀ c ∈ ms.data, c ≠ ' ') (hh : pyFloat hs = .ok h) (hm : pyFloat ms = .ok m) :
    convert_duration_to_hours (hs ++ " h " ++ ms ++ " min") = .ok (h + m / 60) := by
  have hx : 'h' ∈ ("h" : String).data := by decide
  have hy : containsSubL ['m', 'i', 'n'] ("min" : String).data = true := by decide
  simp [convert_duration_to_hours, pySplitSpace_pattern hs ms h1 h2, hx, hy, hh, hm]

/-- Helper: an hours-only duration text converts to just the hours. -/
theorem convert_pattern_hours (hs : String) (h : ℚ) (h1 : ∀ c ∈ hs.data, c ≠ ' ')
    (hh : pyFloat hs = .ok h) :
    convert_duration_to_hours (hs ++ " h") = .ok h := by
  have hx : 'h' ∈ ("h" : String).data := by decide
  simp [convert_duration_to_hours, pySplitSpace_pattern_hours hs h1, hx, hh]

/-- Claim C4, counterexample: the claim states that for every input text a
malformed part defaults to 0, so on the text with a non-numeric hours
field and minutes 0 it would require the result ok 0; the code instead
raises ValueError (float of a non-numeric field), because the marker h is
present in the second field. -/
theorem c4_counterexample :
    convert_duration_to_hours "x h 0 min" = .error () ∧
      convert_duration_to_hours "x h 0 min" ≠ .ok 0 := by
  refine ⟨by with_unfolding_all rfl, fun hc => ?_⟩
  rw [(by with_unfolding_all rfl :
    convert_duration_to_hours "x h 0 min" = Except.error ())] at hc
  exact Except.noConfusion hc

/-- Claim C4 (amended): a text of the pattern H h M min converts to
H + M/60 hours (so 4 h 30 min yields 4.5 and 3 h 50 min yields 23/6);
missing parts, and parts whose marker token (h, min) is absent from the
expected field, default to 0; but a non-numeric hours or minutes field
whose marker is present raises an error instead of defaulting to 0
(see c4_counterexample). -/
theorem c4_claim :
    (∀ (hs ms : String) (h m : ℚ), (∀ c ∈ hs.data, c ≠ ' ') →
      (∀ c ∈ ms.data, c ≠ ' ') → pyFloat hs = .ok h → pyFloat ms = .ok m →
      convert_duration_to_hours (hs ++ " h " ++ ms ++ " min") = .ok (h + m / 60)) ∧
    convert_duration_to_hours "4 h 30 min" = .ok (9 / 2) ∧
    convert_duration_to_hours "3 h 50 min" = .ok (23 / 6) ∧
    (∀ (hs : String) (h : ℚ), (∀ c ∈ hs.data, c ≠ ' ') → pyFloat hs = .ok h →
      convert_duration_to_hours (hs ++ " h") = .ok h) ∧
    convert_duration_to_hours "30 min" = .ok 0 ∧
    convert_duration_to_hours "" = .ok 0 := by
  refine ⟨convert_pattern, by with_unfolding_all rfl, by with_unfolding_all rfl,
    convert_pattern_hours, by with_unfolding_all rfl, by with_unfolding_all rfl⟩

/-- Witness for c4_claim at the concrete fields 4 and 30. -/
theorem c4_witness :
    convert_duration_to_hours ("4" ++ " h " ++ "30" ++ " min") = .ok (4 + 30 / 60) :=
  c4_claim.1 "4" "30" 4 30 (by decide) (by decide)
    (by with_unfolding_all rfl) (by with_unfolding_all rfl)

/-! ### The name normalizer -/

/-- normalize_name from the source: the empty string is returned for the
falsy empty input; otherwise strip, uppercase, collapse whitespace runs
to single spaces, then delete the six punctuation characters (the regex
substitution by the empty string is a filter). -/
def normalize_name (s : String) : String :=
  if s = "" then ""
  else ⟨(collapseWs ((pyStripL s.data).map pyUpperChar)).filter
    (fun c => !isPunctChar c)⟩

/-- Spec-side normalizer, written from the spec's words with a different
mechanism: uppercase the string, split it into whitespace-delimited
words, join the words with single spaces (this expresses trimming plus
whitespace collapsing), then delete the punctuation characters.  It is
proved extensionally equal to normalize_name. -/
def normalizeSpec (s : String) : String :=
  if s = "" then ""
  else ⟨(List.intercalate [' '] (splitWs (s.data.map pyUpperChar))).filter
    (fun c => !isPunctChar c)⟩

/-! ### Character-class facts about the uppercase map -/

theorem upperPairs_facts : ∀ p ∈ upperPairs,
    isPySpace p.1 = false ∧ isPySpace p.2 = false ∧
    isPunctChar p.1 = false ∧ isPunctChar p.2 = false ∧
    upperPairs.find? (fun q => q.1 == p.2) = none := by decide

theorem pyUpperChar_of_find?_eq_none (c : Char)
    (h : upperPairs.find? (fun p => p.1 == c) = none) : pyUpperChar c = c := by
  simp [pyUpperChar, h]

theorem pyUpperChar_of_find?_eq_some (c : Char) (p : Char × Char)
    (h : upperPairs.find? (fun p => p.1 == c) = some p) : pyUpperChar c = p.2 := by
  simp [pyUpperChar, h]

theorem pyUpperChar_idem (c : Char) : pyUpperChar (pyUpperChar c) = pyUpperChar c := by
  cases h : upperPairs.find? (fun p => p.1 == c) with
  | none => rw [pyUpperChar_of_find?_eq_none c h, pyUpperChar_of_find?_eq_none c h]
  | some p =>
    have hp := upperPairs_facts p (List.mem_of_find?_eq_some h)
    rw [pyUpperChar_of_find?_eq_some c p h, pyUpperChar_of_find?_eq_none p.2 hp.2.2.2.2]

theorem isPySpace_pyUpperChar (c : Char) : isPySpace (pyUpperChar c) = isPySpace c := by
  cases h : upperPairs.find? (fun p => p.1 == c) with
  | none => rw [pyUpperChar_of_find?_eq_none c h]
  | some p =>
    have hp := upperPairs_facts p (List.mem_of_find?_eq_some h)
    have hc : p.1 = c := by
      have := List.find?_some h
      simpa using this
    rw [pyUpperChar_of_find?_eq_some c p h, hp.2.1, ← hc, hp.1]

theorem isPunctChar_pyUpperChar (c : Char) :
    isPunctChar (pyUpperChar c) = isPunctChar c := by
  cases h : upperPairs.find? (fun p => p.1 == c) with
  | none => rw [pyUpperChar_of_find?_eq_none c h]
  | some p =>
    have hp := upperPairs_facts p (List.mem_of_find?_eq_some h)
    have hc : p.1 = c := by
      have := List.find?_some h
      simpa using this
    rw [pyUpperChar_of_find?_eq_some c p h, hp.2.2.2.1, ← hc, hp.2.2.1]

/-! ### Whitespace facts about stripping -/

/-- No leading whitespace character. -/
def noLeadWs (l : List Char) : Prop :=
  ∀ c, l.head? = some c → isPySpace c = false

/-- No trailing whitespace character. -/
def noTrailWs (l : List Char) : Prop :=
  ∀ c, l.getLast? = some c → isPySpace c = false

theorem head?_dropWhile_ws (l : List Char) (c : Char)
    (h : (l.dropWhile isPySpace).head? = some c) : isPySpace c = false := by
  induction l with
  | nil => simp at h
  | cons d rest ih =>
    rw [List.dropWhile_cons] at h
    by_cases hd : isPySpace d
    · rw [if_pos hd] at h
      exact ih h
    · rw [if_neg hd] at h
      simp only [List.head?_cons, Option.some.injEq] at h
      subst h
      simpa using hd

theorem noTrailWs_dropTrailWs (l : List Char) : noTrailWs (dropTrailWs l) := by
  intro c hc
  unfold dropTrailWs at hc
  rw [List.getLast?_reverse] at hc
  exact head?_dropWhile_ws l.reverse c hc

theorem head?_dropTrailWs (m : List Char) (c : Char)
    (h : (dropTrailWs m).head? = some c) : m.head? = some c := by
  have hsfx : m.reverse.dropWhile isPySpace <:+ m.reverse := List.dropWhile_suffix _
  have hpre : dropTrailWs m <+: m := by
    unfold dropTrailWs
    have h2 := List.reverse_prefix.mpr hsfx
    rwa [List.reverse_reverse] at h2
  obtain ⟨t, ht⟩ := hpre
  cases hd : dropTrailWs m with
  | nil => rw [hd] at h; simp at h
  | cons d ds =>
    rw [hd] at ht h
    rw [← ht]
    simpa using h

theorem noLeadWs_pyStripL (l : List Char) : noLeadWs (pyStripL l) := by
  intro c hc
  exact head?_dropWhile_ws l c (head?_dropTrailWs (dropLeadWs l) c hc)

theorem noTrailWs_pyStripL (l : List Char) : noTrailWs (pyStripL l) :=
  noTrailWs_dropTrailWs _

theorem noTrailWs_of_cons (c : Char) (rest : List Char)
    (h : noTrailWs (c :: rest)) : noTrailWs rest := by
  intro d hd
  apply h
  cases rest with
  | nil => simp at hd
  | cons y t => rwa [List.getLast?_cons_cons]

/-! ### The uppercase map commutes with stripping -/

theorem dropWhile_ws_map_upper (l : List Char) :
    (l.map pyUpperChar).dropWhile isPySpace = (l.dropWhile isPySpace).map pyUpperChar := by
  induction l with
  | nil => rfl
  | cons c rest ih =>
    simp only [List.map_cons, List.dropWhile_cons, isPySpace_pyUpperChar]
    by_cases hc : isPySpace c
    · rw [if_pos hc, if_pos hc, ih]
    · rw [if_neg hc, if_neg hc, List.map_cons]

theorem pyStripL_map_upper (l : List Char) :
    pyStripL (l.map pyUpperChar) = (pyStripL l).map pyUpperChar := by
  unfold pyStripL dropTrailWs dropLeadWs
  rw [dropWhile_ws_map_upper l, ← List.map_reverse, dropWhile_ws_map_upper, List.map_reverse]

/-! ### splitWs is invariant under stripping -/

theorem splitWsAux_dropLead (l : List Char) :
    splitWsAux [] (l.dropWhile isPySpace) = splitWsAux [] l := by
  induction l with
  | nil => rfl
  | cons c rest ih =>
    rw [List.dropWhile_cons]
    by_cases hc : isPySpace c
    · rw [if_pos hc, ih]
      simp [splitWsAux, hc]
    · rw [if_neg hc]

theorem splitWsAux_all_ws (r : List Char) :
    (∀ c ∈ r, isPySpace c = true) →
      ∀ cur, splitWsAux cur r = if cur = [] then [] else [cur.reverse] := by
  induction r with
  | nil => intro _ cur; rfl
  | cons c rest ih =>
    intro hr cur
    have hc : isPySpace c = true := hr c (by simp)
    have hrest : ∀ d ∈ rest, isPySpace d = true := fun d hd => hr d (by simp [hd])
    have hnil := ih hrest []
    rw [if_pos rfl] at hnil
    by_cases hcur : cur = []
    · subst hcur
      simp only [splitWsAux, hc, if_true, if_pos rfl]
      exact hnil
    · simp only [splitWsAux, hc, if_true, if_neg hcur]
      rw [hnil]

theorem splitWsAux_append_all_ws (r : List Char) (hr : ∀ c ∈ r, isPySpace c = true)
    (l : List Char) : ∀ cur, splitWsAux cur (l ++ r) = splitWsAux cur l := by
  induction l with
  | nil =>
    intro cur
    rw [List.nil_append, splitWsAux_all_ws r hr cur]
    -- base case of splitWsAux on the empty list is the same if-expression
    rfl
  | cons c rest ih =>
    intro cur
    rw [List.cons_append]
    by_cases hc : isPySpace c
    · by_cases hcur : cur = []
      · simp only [splitWsAux, hc, if_true, if_pos hcur, ih]
      · simp only [splitWsAux, hc, if_true, if_neg hcur, ih]
    · simp only [splitWsAux, hc, if_false, ih]

theorem eq_dropTrailWs_append (m : List Char) :
    m = dropTrailWs m ++ (m.reverse.takeWhile isPySpace).reverse := by
  unfold dropTrailWs
  conv_lhs => rw [← m.reverse_reverse,
    ← List.takeWhile_append_dropWhile isPySpace m.reverse]
  rw [List.reverse_append]

theorem splitWsAux_dropTrail (m : List Char) :
    splitWsAux [] (dropTrailWs m) = splitWsAux [] m := by
  conv_rhs => rw [eq_dropTrailWs_append m]
  rw [splitWsAux_append_all_ws _ (fun c hc => by
    rw [List.mem_reverse] at hc
    exact List.mem_takeWhile_imp hc) _ []]

theorem splitWs_pyStripL (l : List Char) : splitWs (pyStripL l) = splitWs l := by
  unfold splitWs pyStripL dropLeadWs
  rw [splitWsAux_dropTrail, splitWsAux_dropLead]

/-! ### Collapsing whitespace equals joining the words with single spaces -/

theorem intercalate_ws_nil : List.intercalate [' '] ([] : List (List Char)) = [] := by
  simp [List.intercalate]

theorem intercalate_ws_single (w : List Char) : List.intercalate [' '] [w] = w := by
  simp [List.intercalate]

theorem intercalate_ws_cons (w : List Char) (L : List (List Char)) (hL : L ≠ []) :
    List.intercalate [' '] (w :: L) = w ++ [' '] ++ List.intercalate [' '] L := by
  cases L with
  | nil => exact absurd rfl hL
  | cons y t => simp [List.intercalate, List.intersperse]

theorem splitWsAux_ne_nil (l : List Char) :
    ∀ cur, cur ≠ [] → splitWsAux cur l ≠ [] := by
  induction l with
  | nil =>
    intro cur hcur
    simp [splitWsAux, hcur]
  | cons c rest ih =>
    intro cur hcur
    by_cases hc : isPySpace c
    · simp [splitWsAux, hc, hcur]
    · simp only [splitWsAux, hc, if_false]
      exact ih (c :: cur) (by simp)

theorem all_ws_of_splitWsAux_nil (l : List Char) (h : splitWsAux [] l = []) :
    ∀ c ∈ l, isPySpace c = true := by
  induction l with
  | nil => intro c hc; simp at hc
  | cons c rest ih =>
    intro d hd
    by_cases hc : isPySpace c
    · simp only [splitWsAux, hc, if_true, if_pos rfl] at h
      rcases List.mem_cons.mp hd with hdc | hdr
      · subst hdc; simpa using hc
      · exact ih h d hdr
    · simp only [splitWsAux, hc, if_false] at h
      exact absurd h (splitWsAux_ne_nil rest [c] (by simp))


/-- Central lemma: on input without trailing whitespace, joining the words
with single spaces computes collapseWsAux; the first component carries a
pending word, the second starts between words (flag true). -/
theorem splitWsAux_intercalate (l : List Char) (hl : noTrailWs l) :
    (∀ cur, cur ≠ [] → List.intercalate [' '] (splitWsAux cur l)
      = cur.reverse ++ collapseWsAux false l) ∧
    List.intercalate [' '] (splitWsAux [] l) = collapseWsAux true l := by
  induction l with
  | nil =>
    constructor
    · intro cur hcur
      show List.intercalate [' '] (if cur = [] then [] else [cur.reverse]) = _
      rw [if_neg hcur, intercalate_ws_single]
      simp [collapseWsAux]
    · show List.intercalate [' '] (if ([] : List Char) = [] then [] else _) = _
      rw [if_pos rfl, intercalate_ws_nil]
      rfl
  | cons c rest ih =>
    cases hc : isPySpace c with
    | true =>
      have hrestne : rest ≠ [] := by
        rintro rfl
        have h0 := hl c (by simp)
        rw [h0] at hc
        exact Bool.noConfusion hc
      have hrest : noTrailWs rest := noTrailWs_of_cons c rest hl
      obtain ⟨ihcur, ihnil⟩ := ih hrest
      have hne : splitWsAux [] rest ≠ [] := by
        intro h0
        have hall := all_ws_of_splitWsAux_nil rest h0
        have hmem := List.getLast_mem hrestne
        have h1 := hall _ hmem
        have h2 := hrest _ (List.getLast?_eq_getLast rest hrestne)
        rw [h1] at h2
        exact Bool.noConfusion h2
      constructor
      · intro cur hcur
        simp only [splitWsAux, hc, if_true, if_neg hcur]
        rw [intercalate_ws_cons _ _ hne, ihnil]
        simp [collapseWsAux, hc]
      · simp only [splitWsAux, hc, if_true, if_pos rfl]
        rw [ihnil]
        simp [collapseWsAux, hc]
    | false =>
      have hrest : noTrailWs rest := noTrailWs_of_cons c rest hl
      obtain ⟨ihcur, _⟩ := ih hrest
      constructor
      · intro cur hcur
        simp only [splitWsAux, hc, Bool.false_eq_true, if_false]
        rw [ihcur (c :: cur) (by simp)]
        simp [collapseWsAux, hc]
      · simp only [splitWsAux, hc, Bool.false_eq_true, if_false]
        rw [ihcur [c] (by simp)]
        simp [collapseWsAux, hc]

theorem collapseWs_eq_intercalate (m : List Char) (h1 : noLeadWs m) (h2 : noTrailWs m) :
    collapseWs m = List.intercalate [' '] (splitWs m) := by
  cases m with
  | nil => rfl
  | cons c rest =>
    have hc : isPySpace c = false := h1 c rfl
    have hrest := noTrailWs_of_cons c rest h2
    unfold collapseWs splitWs
    simp only [splitWsAux, hc, Bool.false_eq_true, if_false]
    rw [(splitWsAux_intercalate rest hrest).1 [c] (by simp)]
    simp [collapseWsAux, hc]

/-- The source normalizer equals the spec-side normalizer. -/
theorem normalize_name_eq_normalizeSpec (s : String) :
    normalize_name s = normalizeSpec s := by
  unfold normalize_name normalizeSpec
  by_cases hs : s = ""
  · simp [hs]
  · rw [if_neg hs, if_neg hs]
    congr 1
    rw [← pyStripL_map_upper,
      collapseWs_eq_intercalate _ (noLeadWs_pyStripL _) (noTrailWs_pyStripL _),
      splitWs_pyStripL]

/-! ### Accented characters survive normalization with their accents -/

/-- The Latin-1 accented letters (both cases) handled by the model. -/
def accentChars : List Char :=
  ['À', 'Á', 'Â', 'Ã', 'Ä', 'Å', 'Æ', 'Ç', 'È', 'É', 'Ê', 'Ë', 'Ì', 'Í',
   'Î', 'Ï', 'Ð', 'Ñ', 'Ò', 'Ó', 'Ô', 'Õ', 'Ö', 'Ø', 'Ù', 'Ú', 'Û', 'Ü',
   'Ý', 'Þ', 'Ÿ',
   'à', 'á', 'â', 'ã', 'ä', 'å', 'æ', 'ç', 'è', 'é', 'ê', 'ë', 'ì', 'í',
   'î', 'ï', 'ð', 'ñ', 'ò', 'ó', 'ô', 'õ', 'ö', 'ø', 'ù', 'ú', 'û', 'ü',
   'ý', 'þ', 'ÿ']

/-- Membership in the accented-letter class. -/
def isAccented (c : Char) : Bool :=
  decide (c ∈ accentChars)

theorem accentChars_facts : ∀ c ∈ accentChars,
    isPySpace c = false ∧ isPunctChar c = false := by decide

theorem upperPairs_accent : ∀ p ∈ upperPairs, isAccented p.1 = isAccented p.2 := by
  decide

theorem isAccented_not_ws (c : Char) (h : isPySpace c = true) : isAccented c = false := by
  cases ha : isAccented c with
  | false => rfl
  | true =>
    have hc : c ∈ accentChars := of_decide_eq_true ha
    rw [(accentChars_facts c hc).1] at h
    exact Bool.noConfusion h

theorem isAccented_not_punct (c : Char) (h : isAccented c = true) :
    isPunctChar c = false :=
  (accentChars_facts c (of_decide_eq_true h)).2

theorem isAccented_space : isAccented ' ' = false := by decide

theorem isAccented_pyUpperChar (c : Char) : isAccented (pyUpperChar c) = isAccented c := by
  cases h : upperPairs.find? (fun p => p.1 == c) with
  | none => rw [pyUpperChar_of_find?_eq_none c h]
  | some p =>
    have hp := upperPairs_accent p (List.mem_of_find?_eq_some h)
    have hc : p.1 = c := by
      have := List.find?_some h
      simpa using this
    rw [pyUpperChar_of_find?_eq_some c p h, ← hp, hc]

theorem countAcc_dropLeadWs (l : List Char) :
    List.countP isAccented (dropLeadWs l) = List.countP isAccented l := by
  unfold dropLeadWs
  conv_rhs => rw [← List.takeWhile_append_dropWhile isPySpace l]
  rw [List.countP_append]
  have h0 : List.countP isAccented (l.takeWhile isPySpace) = 0 :=
    List.countP_eq_zero.2 (fun c hc => by
      rw [isAccented_not_ws c (List.mem_takeWhile_imp hc)]
      exact Bool.noConfusion)
  rw [h0]
  omega

theorem countAcc_dropTrailWs (l : List Char) :
    List.countP isAccented (dropTrailWs l) = List.countP isAccented l := by
  unfold dropTrailWs
  rw [(List.reverse_perm _).countP_eq]
  have h1 : List.countP isAccented (List.dropWhile isPySpace l.reverse)
      = List.countP isAccented l.reverse := by
    have h2 := countAcc_dropLeadWs l.reverse
    unfold dropLeadWs at h2
    exact h2
  rw [h1, (List.reverse_perm l).countP_eq]

theorem countAcc_pyStripL (l : List Char) :
    List.countP isAccented (pyStripL l) = List.countP isAccented l := by
  unfold pyStripL
  rw [countAcc_dropTrailWs, countAcc_dropLeadWs]

theorem countAcc_map_upper (l : List Char) :
    List.countP isAccented (l.map pyUpperChar) = List.countP isAccented l := by
  rw [List.countP_map]
  exact List.countP_congr (fun c _ => by
    show (isAccented ∘ pyUpperChar) c = true ↔ isAccented c = true
    rw [Function.comp_apply, isAccented_pyUpperChar])

theorem countAcc_collapseWsAux (l : List Char) :
    ∀ b, List.countP isAccented (collapseWsAux b l) = List.countP isAccented l := by
  induction l with
  | nil => intro b; rfl
  | cons c rest ih =>
    intro b
    cases hc : isPySpace c with
    | true =>
      have hca : isAccented c = false := isAccented_not_ws c hc
      cases b with
      | true =>
        simp only [collapseWsAux, hc, if_true]
        rw [ih true, List.countP_cons, hca]
        simp
      | false =>
        simp only [collapseWsAux, hc, if_true, Bool.false_eq_true, if_false]
        rw [List.countP_cons, List.countP_cons, ih true, hca, isAccented_space]
    | false =>
      simp only [collapseWsAux, hc, Bool.false_eq_true, if_false]
      rw [List.countP_cons, List.countP_cons, ih false]

theorem countAcc_filter_punct (l : List Char) :
    List.countP isAccented (l.filter (fun c => !isPunctChar c))
      = List.countP isAccented l := by
  rw [List.countP_filter]
  exact List.countP_congr (fun c _ => by
    constructor
    · intro h
      exact (Bool.and_eq_true _ _).mp h |>.1
    · intro h
      rw [h, isAccented_not_punct c h]
      rfl)

/-- Helper for claim C7: normalization never loses an accented letter and
never strips its accent (the count of accented-class characters is
preserved; an accented letter is case-mapped within the class). -/
theorem countAcc_normalize (s : String) :
    List.countP isAccented (normalize_name s).data = List.countP isAccented s.data := by
  unfold normalize_name
  by_cases hs : s = ""
  · subst hs; rfl
  · rw [if_neg hs]
    show List.countP isAccented
      ((collapseWs ((pyStripL s.data).map pyUpperChar)).filter (fun c => !isPunctChar c)) = _
    rw [countAcc_filter_punct]
    unfold collapseWs
    rw [countAcc_collapseWsAux _ false, countAcc_map_upper, countAcc_pyStripL]

/-- Claim C7: the normalizer returns the empty string on the (falsy)
empty input and otherwise trims, uppercases, collapses whitespace runs
into single spaces and then deletes (does not replace by a space) the
characters period, comma, semicolon, colon, apostrophe and double quote;
this is stated as extensional equality with the spec-side pipeline
normalizeSpec (words joined by single spaces, then punctuation filtered
out).  Accented characters pass through: none is deleted and none loses
its accent (the accented-class count is preserved; a lowercase accented
letter is uppercased within the class, like every letter), witnessed also
on a concrete accented name, while the punctuation example shows deletion
rather than replacement by a space. -/
theorem c7_claim :
    (∀ s : String, normalize_name s = normalizeSpec s) ∧
    normalize_name "" = "" ∧
    (∀ s : String, List.countP isAccented (normalize_name s).data
      = List.countP isAccented s.data) ∧
    normalize_name " a.b,c;d:e'f\"g " = "ABCDEFG" ∧
    normalize_name "JOSÉ ÑÚÑEZ" = "JOSÉ ÑÚÑEZ" :=
  ⟨normalize_name_eq_normalizeSpec, rfl, countAcc_normalize, by decide, by decide⟩

/-- Claim C3, counterexample: the normalizer is not idempotent.  The
source collapses whitespace before deleting punctuation, so deleting the
period of "A . B" leaves a double space, which a second normalization
collapses. -/
theorem c3_counterexample :
    normalize_name "A . B" = "A  B" ∧
    normalize_name (normalize_name "A . B") ≠ normalize_name "A . B" :=
  ⟨by decide, by decide⟩

/-! ### Idempotence on punctuation-free strings -/

theorem mem_intercalate_ws (c : Char) (W : List (List Char)) :
    c ∈ List.intercalate [' '] W → c = ' ' ∨ ∃ w ∈ W, c ∈ w := by
  induction W with
  | nil => intro h; rw [intercalate_ws_nil] at h; simp at h
  | cons w L ih =>
    intro h
    by_cases hL : L = []
    · subst hL
      rw [intercalate_ws_single] at h
      exact Or.inr ⟨w, by simp, h⟩
    · rw [intercalate_ws_cons w L hL] at h
      rcases List.mem_append.mp h with h1 | h2
      · rcases List.mem_append.mp h1 with h3 | h4
        · exact Or.inr ⟨w, by simp, h3⟩
        · simp at h4
          exact Or.inl h4
      · rcases ih h2 with h5 | ⟨v, hv, hcv⟩
        · exact Or.inl h5
        · exact Or.inr ⟨v, by simp [hv], hcv⟩

theorem mem_of_mem_splitWsAux (l : List Char) :
    ∀ cur w c, w ∈ splitWsAux cur l → c ∈ w → c ∈ cur ∨ c ∈ l := by
  induction l with
  | nil =>
    intro cur w c hw hc
    by_cases hcur : cur = []
    · simp [splitWsAux, hcur] at hw
    · simp only [splitWsAux, if_neg hcur, List.mem_singleton] at hw
      subst hw
      exact Or.inl (List.mem_reverse.mp hc)
  | cons d rest ih =>
    intro cur w c hw hc
    cases hd : isPySpace d with
    | true =>
      by_cases hcur : cur = []
      · simp only [splitWsAux, hd, if_true, if_pos hcur] at hw
        rcases ih [] w c hw hc with h1 | h2
        · simp at h1
        · exact Or.inr (by simp [h2])
      · simp only [splitWsAux, hd, if_true, if_neg hcur, List.mem_cons] at hw
        rcases hw with hw | hw
        · subst hw
          exact Or.inl (List.mem_reverse.mp hc)
        · rcases ih [] w c hw hc with h1 | h2
          · simp at h1
          · exact Or.inr (by simp [h2])
    | false =>
      simp only [splitWsAux, hd, Bool.false_eq_true, if_false] at hw
      rcases ih (d :: cur) w c hw hc with h1 | h2
      · rcases List.mem_cons.mp h1 with h3 | h4
        · exact Or.inr (by simp [h3])
        · exact Or.inl h4
      · exact Or.inr (by simp [h2])

theorem splitWsAux_words (l : List Char) :
    ∀ cur, (∀ c ∈ cur, isPySpace c = false) →
      ∀ w ∈ splitWsAux cur l, w ≠ [] ∧ ∀ c ∈ w, isPySpace c = false := by
  induction l with
  | nil =>
    intro cur hcur w hw
    by_cases hc : cur = []
    · simp [splitWsAux, hc] at hw
    · simp only [splitWsAux, if_neg hc, List.mem_singleton] at hw
      subst hw
      exact ⟨by simpa using hc, fun c hcw => hcur c (List.mem_reverse.mp hcw)⟩
  | cons d rest ih =>
    intro cur hcur w hw
    cases hd : isPySpace d with
    | true =>
      by_cases hc : cur = []
      · simp only [splitWsAux, hd, if_true, if_pos hc] at hw
        exact ih [] (by simp) w hw
      · simp only [splitWsAux, hd, if_true, if_neg hc, List.mem_cons] at hw
        rcases hw with hw | hw
        · subst hw
          exact ⟨by simpa using hc, fun c hcw => hcur c (List.mem_reverse.mp hcw)⟩
        · exact ih [] (by simp) w hw
    | false =>
      simp only [splitWsAux, hd, Bool.false_eq_true, if_false] at hw
      refine ih (d :: cur) ?_ w hw
      intro c hcd
      rcases List.mem_cons.mp hcd with h3 | h4
      · subst h3; exact hd
      · exact hcur c h4

theorem splitWsAux_append_word (w : List Char) (hw : ∀ c ∈ w, isPySpace c = false) :
    ∀ cur t, splitWsAux cur (w ++ t) = splitWsAux (w.reverse ++ cur) t := by
  induction w with
  | nil => intro cur t; simp
  | cons c w' ih =>
    intro cur t
    have hc : isPySpace c = false := hw c (by simp)
    rw [List.cons_append]
    simp only [splitWsAux, hc, Bool.false_eq_true, if_false]
    rw [ih (fun d hd => hw d (by simp [hd])) (c :: cur) t]
    simp

theorem splitWs_intercalate (W : List (List Char)) :
    (∀ w ∈ W, w ≠ [] ∧ ∀ c ∈ w, isPySpace c = false) →
      splitWs (List.intercalate [' '] W) = W := by
  induction W with
  | nil => intro _; rw [intercalate_ws_nil]; rfl
  | cons w L ih =>
    intro hW
    have hw := hW w (by simp)
    have hL' : ∀ v ∈ L, v ≠ [] ∧ ∀ c ∈ v, isPySpace c = false :=
      fun v hv => hW v (by simp [hv])
    by_cases hL : L = []
    · subst hL
      rw [intercalate_ws_single]
      unfold splitWs
      have h0 := splitWsAux_append_word w hw.2 [] []
      rw [List.append_nil] at h0
      rw [h0]
      simp only [splitWsAux]
      rw [if_neg (by simpa using hw.1)]
      simp
    · rw [intercalate_ws_cons w L hL, List.append_assoc]
      unfold splitWs
      rw [splitWsAux_append_word w hw.2 [] _, List.singleton_append]
      have hsp : isPySpace ' ' = true := by decide
      have hihL := ih hL'
      unfold splitWs at hihL
      rw [show splitWsAux (w.reverse ++ []) (' ' :: List.intercalate [' '] L)
          = (w.reverse ++ []).reverse :: splitWsAux [] (List.intercalate [' '] L) from by
        simp [splitWsAux, hsp, hw.1]]
      rw [hihL]
      simp

theorem map_self_of_fixed {α : Type} (f : α → α) (l : List α)
    (h : ∀ a ∈ l, f a = a) : l.map f = l := by
  induction l with
  | nil => rfl
  | cons a t ih =>
    rw [List.map_cons, h a (by simp), ih (fun b hb => h b (by simp [hb]))]

theorem map_intercalate_ws (W : List (List Char)) :
    (List.intercalate [' '] W).map pyUpperChar
      = List.intercalate [' '] (W.map (List.map pyUpperChar)) := by
  induction W with
  | nil => rw [intercalate_ws_nil]; rfl
  | cons w L ih =>
    by_cases hL : L = []
    · subst hL
      rw [intercalate_ws_single, List.map_cons, List.map_nil, intercalate_ws_single]
    · rw [intercalate_ws_cons w L hL, List.map_cons,
        intercalate_ws_cons _ _ (by simpa using hL),
        List.map_append, List.map_append, ih]
      rfl

/-- Claim C3 (amended): the normalizer is idempotent on every string that
contains none of the six punctuation characters it deletes (on such
strings the second pass finds an already trimmed, uppercased,
whitespace-collapsed string and leaves it unchanged).  On strings with
punctuation idempotence fails, see c3_counterexample. -/
theorem c3_claim (s : String) (hs : ∀ c ∈ s.data, isPunctChar c = false) :
    normalize_name (normalize_name s) = normalize_name s := by
  by_cases h0 : s = ""
  · subst h0; rfl
  · have hWwords : ∀ w ∈ splitWs (s.data.map pyUpperChar),
        w ≠ [] ∧ ∀ c ∈ w, isPySpace c = false :=
      splitWsAux_words _ [] (by simp)
    have hWchars : ∀ w ∈ splitWs (s.data.map pyUpperChar), ∀ c ∈ w,
        c ∈ s.data.map pyUpperChar := by
      intro w hw c hc
      rcases mem_of_mem_splitWsAux _ [] w c hw hc with h1 | h2
      · simp at h1
      · exact h2
    have hWpunct : ∀ c ∈ List.intercalate [' '] (splitWs (s.data.map pyUpperChar)),
        isPunctChar c = false := by
      intro c hc
      rcases mem_intercalate_ws c _ hc with hsp | ⟨w, hw, hcw⟩
      · subst hsp; decide
      · have hmem := hWchars w hw c hcw
        rcases List.mem_map.mp hmem with ⟨d, hd, rfl⟩
        rw [isPunctChar_pyUpperChar]
        exact hs d hd
    have key1 : (normalize_name s).data
        = List.intercalate [' '] (splitWs (s.data.map pyUpperChar)) := by
      rw [normalize_name_eq_normalizeSpec s]
      unfold normalizeSpec
      rw [if_neg h0]
      exact List.filter_eq_self.2 (fun c hc => by rw [hWpunct c hc]; rfl)
    by_cases hns : normalize_name s = ""
    · rw [hns]; rfl
    · rw [normalize_name_eq_normalizeSpec (normalize_name s)]
      unfold normalizeSpec
      rw [if_neg hns, key1]
      have hfix : (List.intercalate [' '] (splitWs (s.data.map pyUpperChar))).map pyUpperChar
          = List.intercalate [' '] (splitWs (s.data.map pyUpperChar)) := by
        rw [map_intercalate_ws]
        congr 1
        apply map_self_of_fixed
        intro w hw
        apply map_self_of_fixed
        intro c hc
        rcases List.mem_map.mp (hWchars w hw c hc) with ⟨d, _, rfl⟩
        exact pyUpperChar_idem d
      rw [hfix, splitWs_intercalate _ hWwords]
      have hfilter : (List.intercalate [' '] (splitWs (s.data.map pyUpperChar))).filter
          (fun c => !isPunctChar c)
          = List.intercalate [' '] (splitWs (s.data.map pyUpperChar)) :=
        List.filter_eq_self.2 (fun c hc => by rw [hWpunct c hc]; rfl)
      rw [hfilter, ← key1]

/-- Witness for c3_claim on a punctuation-free concrete string. -/
theorem c3_witness :
    normalize_name (normalize_name "  jose   perez ") = normalize_name "  jose   perez " :=
  c3_claim "  jose   perez " (by decide)

/-! ### The fuzzy name matcher -/

/-- str.split() on a String: the whitespace-delimited words. -/
def pyWords (s : String) : List String :=
  (splitWs s.data).map String.mk

/-- set(s.split()): the set of whitespace-delimited words of a name. -/
def wordSet (s : String) : Finset String :=
  (pyWords s).toFinset

/-- The similarity score of find_matching_name: common distinct words
divided by the larger word-set size (a rational; the source divides
floats).  Division by zero does not arise where the score is used, the
caller guards the denominator. -/
def scoreOf (t n : String) : ℚ :=
  ((wordSet t ∩ wordSet n).card : ℚ) / (max (wordSet t).card (wordSet n).card : ℚ)

/-- The candidate loop of find_matching_name: best match and best score
so far; a candidate wins when its score exceeds both the best score and
the 0.5 threshold.  A zero denominator is Python's ZeroDivisionError,
modelled as Except.error. -/
def findLoop (t : String) : List String → Option String → ℚ → Except Unit (Option String)
  | [], best, _ => .ok best
  | n :: rest, best, bs =>
    if max (wordSet t).card (wordSet n).card = 0 then .error ()
    else if scoreOf t n > bs ∧ scoreOf t n > 1 / 2 then findLoop t rest (some n) (scoreOf t n)
    else findLoop t rest best bs

/-- find_matching_name from the source: empty (falsy) target gives None;
an exact member is returned at once; otherwise the loop scores every
candidate in order. -/
def find_matching_name (t : String) (names : List String) : Except Unit (Option String) :=
  if t = "" then .ok none
  else if t ∈ names then .ok (some t)
  else findLoop t names none 0

/-- Spec-side matcher for the non-exact path, written from the spec's
words: compute the highest score over all candidates; if it strictly
exceeds 0.5, return the first candidate attaining it, else no match. -/
def bestMatchSpec (t : String) (names : List String) : Option String :=
  let best := names.foldl (fun a n => max a (scoreOf t n)) 0
  if best > 1 / 2 then names.find? (fun n => decide (scoreOf t n = best)) else none

/-- Claim C5, counterexample: on target JOHN SMITH and candidate
JOHN DOE the score is 1/2 (one common word over max set size 2), not the
1/3 the claim states (1/3 would be intersection over union). -/
theorem c5_counterexample :
    scoreOf "JOHN SMITH" "JOHN DOE" = 1 / 2 ∧
      scoreOf "JOHN SMITH" "JOHN DOE" ≠ 1 / 3 := by
  constructor
  · with_unfolding_all decide
  · intro h
    rw [(by with_unfolding_all decide : scoreOf "JOHN SMITH" "JOHN DOE" = 1 / 2)] at h
    exact absurd h (by with_unfolding_all decide)

/-- Claim C5 (amended): for target JOHN SMITH and single candidate
JOHN DOE the similarity score is 1/2, which does not strictly exceed the
0.5 threshold, and find_matching_name returns no match. -/
theorem c5_claim :
    scoreOf "JOHN SMITH" "JOHN DOE" = 1 / 2 ∧
    ¬ ((1 : ℚ) / 2 > 1 / 2) ∧
    find_matching_name "JOHN SMITH" ["JOHN DOE"] = .ok none := by
  refine ⟨by with_unfolding_all decide, by norm_num, by with_unfolding_all rfl⟩

/-- Claim C6, counterexample: the falsy-target check precedes the
exact-match check, so the empty target is returned as no-match even when
it occurs among the candidates (the claim requires returning the target
itself). -/
theorem c6_counterexample :
    find_matching_name "" [""] = .ok none ∧
      find_matching_name "" [""] ≠ .ok (some "") := by
  refine ⟨rfl, fun h => ?_⟩
  have h2 : (none : Option String) = some "" := Except.ok.inj h
  exact Option.noConfusion h2

/-- Claim C6 (amended): for every non-empty target exactly present in
the candidates, find_matching_name returns the target itself, regardless
of the scores of any other candidates. -/
theorem c6_claim (t : String) (names : List String) (ht : t ≠ "")
    (hmem : t ∈ names) : find_matching_name t names = .ok (some t) := by
  unfold find_matching_name
  rw [if_neg ht, if_pos hmem]

/-- Witness for c6_claim. -/
theorem c6_witness : find_matching_name "A" ["B A", "A"] = .ok (some "A") :=
  c6_claim "A" ["B A", "A"] (by decide) (by decide)

/-! ### Equivalence of the candidate loop with the spec-side matcher -/

/-- Best score over a candidate list, folded from a starting score. -/
def maxScoreFrom (t : String) (a : ℚ) (names : List String) : ℚ :=
  names.foldl (fun acc n => max acc (scoreOf t n)) a

theorem bestMatchSpec_eq (t : String) (names : List String) :
    bestMatchSpec t names
      = if 1 / 2 < maxScoreFrom t 0 names
        then names.find? (fun n => decide (scoreOf t n = maxScoreFrom t 0 names))
        else none := rfl

theorem scoreOf_nonneg (t n : String) : 0 ≤ scoreOf t n := by
  unfold scoreOf
  apply div_nonneg
  · exact Nat.cast_nonneg _
  · exact le_trans (Nat.cast_nonneg _) (le_max_left _ _)

theorem maxScoreFrom_nil (t : String) (a : ℚ) : maxScoreFrom t a [] = a := rfl

theorem maxScoreFrom_cons (t : String) (a : ℚ) (n : String) (rest : List String) :
    maxScoreFrom t a (n :: rest) = maxScoreFrom t (max a (scoreOf t n)) rest := rfl

theorem le_maxScoreFrom (t : String) (names : List String) :
    ∀ a, a ≤ maxScoreFrom t a names := by
  induction names with
  | nil => intro a; exact le_refl a
  | cons n rest ih =>
    intro a
    rw [maxScoreFrom_cons]
    exact le_trans (le_max_left _ _) (ih _)

theorem maxScoreFrom_eq_max (t : String) (names : List String) :
    ∀ a, 0 ≤ a → maxScoreFrom t a names = max a (maxScoreFrom t 0 names) := by
  induction names with
  | nil =>
    intro a ha
    rw [maxScoreFrom_nil, maxScoreFrom_nil, max_eq_left ha]
  | cons n rest ih =>
    intro a ha
    rw [maxScoreFrom_cons, maxScoreFrom_cons,
      ih (max a (scoreOf t n)) (le_trans ha (le_max_left _ _)),
      max_eq_right (scoreOf_nonneg t n),
      ih (scoreOf t n) (scoreOf_nonneg t n), ← max_assoc]

/-- After the threshold has been passed (best score above 1/2, a best
match in hand), the loop returns the first candidate attaining the final
best score if some candidate improves on the current best, else the
current best match. -/
theorem findLoop_post (t : String) (names : List String)
    (hcard : ∀ n ∈ names, 0 < max (wordSet t).card (wordSet n).card) :
    ∀ (b : String) (bs : ℚ), 1 / 2 < bs →
      findLoop t names (some b) bs = .ok
        (if bs < maxScoreFrom t bs names
         then names.find? (fun n => decide (scoreOf t n = maxScoreFrom t bs names))
         else some b) := by
  induction names with
  | nil =>
    intro b bs _
    rw [maxScoreFrom_nil, if_neg (lt_irrefl bs)]
    rfl
  | cons n rest ih =>
    intro b bs hbs
    have hc0 : ¬ (max (wordSet t).card (wordSet n).card = 0) :=
      Nat.pos_iff_ne_zero.mp (hcard n (by simp))
    have hrest : ∀ m ∈ rest, 0 < max (wordSet t).card (wordSet m).card :=
      fun m hm => hcard m (by simp [hm])
    rw [show findLoop t (n :: rest) (some b) bs
        = if max (wordSet t).card (wordSet n).card = 0 then .error ()
          else if scoreOf t n > bs ∧ scoreOf t n > 1 / 2
            then findLoop t rest (some n) (scoreOf t n)
          else findLoop t rest (some b) bs from rfl]
    rw [if_neg hc0, maxScoreFrom_cons]
    by_cases hs : bs < scoreOf t n
    · have hcond : scoreOf t n > bs ∧ scoreOf t n > 1 / 2 := ⟨hs, lt_trans hbs hs⟩
      rw [if_pos hcond, ih hrest n (scoreOf t n) hcond.2, max_eq_right hs.le]
      have hsM : scoreOf t n ≤ maxScoreFrom t (scoreOf t n) rest :=
        le_maxScoreFrom t rest _
      rw [if_pos (lt_of_lt_of_le hs hsM)]
      rcases eq_or_lt_of_le hsM with heq | hlt
      · have hfind : List.find?
            (fun m => decide (scoreOf t m = maxScoreFrom t (scoreOf t n) rest)) (n :: rest)
            = some n :=
          List.find?_cons_of_pos _ (by simp only [decide_eq_true_eq]; exact heq)
        rw [if_neg (by rw [← heq]; exact lt_irrefl _), hfind]
      · have hfind : List.find?
            (fun m => decide (scoreOf t m = maxScoreFrom t (scoreOf t n) rest)) (n :: rest)
            = List.find?
              (fun m => decide (scoreOf t m = maxScoreFrom t (scoreOf t n) rest)) rest :=
          List.find?_cons_of_neg _ (by simp only [decide_eq_true_eq]; exact ne_of_lt hlt)
        rw [if_pos hlt, hfind]
    · have hcond : ¬ (scoreOf t n > bs ∧ scoreOf t n > 1 / 2) := fun hh => hs hh.1
      rw [if_neg hcond, ih hrest b bs hbs, max_eq_left (not_lt.mp hs)]
      by_cases hM2 : bs < maxScoreFrom t bs rest
      · have hfind : List.find?
            (fun m => decide (scoreOf t m = maxScoreFrom t bs rest)) (n :: rest)
            = List.find? (fun m => decide (scoreOf t m = maxScoreFrom t bs rest)) rest :=
          List.find?_cons_of_neg _ (by
            simp only [decide_eq_true_eq]
            intro heq
            rw [heq] at hs
            exact hs hM2)
        rw [if_pos hM2, if_pos hM2, hfind]
      · rw [if_neg hM2, if_neg hM2]

/-- From the start state (no best match, best score zero) the loop
computes the spec-side matcher. -/
theorem findLoop_start (t : String) (names : List String)
    (hcard : ∀ n ∈ names, 0 < max (wordSet t).card (wordSet n).card) :
    findLoop t names none 0 = .ok
      (if 1 / 2 < maxScoreFrom t 0 names
       then names.find? (fun n => decide (scoreOf t n = maxScoreFrom t 0 names))
       else none) := by
  induction names with
  | nil =>
    rw [maxScoreFrom_nil, if_neg (by norm_num)]
    rfl
  | cons n rest ih =>
    have hc0 : ¬ (max (wordSet t).card (wordSet n).card = 0) :=
      Nat.pos_iff_ne_zero.mp (hcard n (by simp))
    have hrest : ∀ m ∈ rest, 0 < max (wordSet t).card (wordSet m).card :=
      fun m hm => hcard m (by simp [hm])
    rw [show findLoop t (n :: rest) none 0
        = if max (wordSet t).card (wordSet n).card = 0 then .error ()
          else if scoreOf t n > 0 ∧ scoreOf t n > 1 / 2
            then findLoop t rest (some n) (scoreOf t n)
          else findLoop t rest none 0 from rfl]
    rw [if_neg hc0, maxScoreFrom_cons, max_eq_right (scoreOf_nonneg t n)]
    by_cases hs : 1 / 2 < scoreOf t n
    · have hcond : scoreOf t n > 0 ∧ scoreOf t n > 1 / 2 :=
        ⟨lt_of_le_of_lt (by norm_num) hs, hs⟩
      rw [if_pos hcond, findLoop_post t rest hrest n (scoreOf t n) hs]
      have hsM : scoreOf t n ≤ maxScoreFrom t (scoreOf t n) rest :=
        le_maxScoreFrom t rest _
      rw [if_pos (lt_of_lt_of_le hs hsM)]
      rcases eq_or_lt_of_le hsM with heq | hlt
      · have hfind : List.find?
            (fun m => decide (scoreOf t m = maxScoreFrom t (scoreOf t n) rest)) (n :: rest)
            = some n :=
          List.find?_cons_of_pos _ (by simp only [decide_eq_true_eq]; exact heq)
        rw [if_neg (by rw [← heq]; exact lt_irrefl _), hfind]
      · have hfind : List.find?
            (fun m => decide (scoreOf t m = maxScoreFrom t (scoreOf t n) rest)) (n :: rest)
            = List.find?
              (fun m => decide (scoreOf t m = maxScoreFrom t (scoreOf t n) rest)) rest :=
          List.find?_cons_of_neg _ (by simp only [decide_eq_true_eq]; exact ne_of_lt hlt)
        rw [if_pos hlt, hfind]
    · have hcond : ¬ (scoreOf t n > 0 ∧ scoreOf t n > 1 / 2) := fun hh => hs hh.2
      rw [if_neg hcond, ih hrest,
        maxScoreFrom_eq_max t rest (scoreOf t n) (scoreOf_nonneg t n)]
      by_cases hM2 : 1 / 2 < maxScoreFrom t 0 rest
      · have hmax : max (scoreOf t n) (maxScoreFrom t 0 rest) = maxScoreFrom t 0 rest :=
          max_eq_right (le_of_lt (lt_of_le_of_lt (not_lt.mp hs) hM2))
        have hfind : List.find?
            (fun m => decide (scoreOf t m = maxScoreFrom t 0 rest)) (n :: rest)
            = List.find? (fun m => decide (scoreOf t m = maxScoreFrom t 0 rest)) rest :=
          List.find?_cons_of_neg _ (by
            simp only [decide_eq_true_eq]
            intro heq
            rw [heq] at hs
            exact hs hM2)
        rw [hmax, if_pos hM2, if_pos hM2, hfind]
      · have hmax : ¬ (1 / 2 < max (scoreOf t n) (maxScoreFrom t 0 rest)) := by
          rw [not_lt]
          exact max_le (not_lt.mp hs) (not_lt.mp hM2)
        rw [if_neg hmax, if_neg hM2]

/-- Claim C2: for every non-empty target not exactly present among the
candidates, provided every candidate's score denominator is non-zero (the
claim's score formula is undefined otherwise, and the code would raise
ZeroDivisionError), find_matching_name scores each candidate as common
distinct words over the larger word-set size, returns the first candidate
in iteration order attaining the strictly highest score when that score
strictly exceeds 1/2, and returns no match when no candidate's score
exceeds 1/2 — stated as equality with the spec-side matcher
bestMatchSpec. -/
theorem c2_claim (t : String) (names : List String) (ht : t ≠ "")
    (hmem : t ∉ names)
    (hden : ∀ n ∈ names, 0 < max (wordSet t).card (wordSet n).card) :
    find_matching_name t names = .ok (bestMatchSpec t names) := by
  unfold find_matching_name
  rw [if_neg ht, if_neg hmem, findLoop_start t names hden, bestMatchSpec_eq]

/-- Witness for c2_claim: the spec example target with two candidates;
the first candidate scores 2/3 and is returned. -/
theorem c2_witness :
    find_matching_name "JOHN SMITH GARCIA" ["SMITH GARCIA", "JOHN DOE"]
      = .ok (bestMatchSpec "JOHN SMITH GARCIA" ["SMITH GARCIA", "JOHN DOE"]) ∧
    bestMatchSpec "JOHN SMITH GARCIA" ["SMITH GARCIA", "JOHN DOE"]
      = some "SMITH GARCIA" :=
  ⟨c2_claim "JOHN SMITH GARCIA" ["SMITH GARCIA", "JOHN DOE"] (by decide)
      (by decide) (by decide),
    by with_unfolding_all decide⟩

/-- Any ok result of the loop is the incoming best match or a candidate
whose score strictly exceeds 1/2. -/
theorem findLoop_mem (t : String) (names : List String) :
    ∀ (b : Option String) (bs : ℚ) (r : Option String),
      findLoop t names b bs = .ok r →
      r = b ∨ ∃ m, r = some m ∧ m ∈ names ∧ 1 / 2 < scoreOf t m := by
  induction names with
  | nil =>
    intro b bs r h
    exact Or.inl (Except.ok.inj h).symm
  | cons n rest ih =>
    intro b bs r h
    rw [show findLoop t (n :: rest) b bs
        = if max (wordSet t).card (wordSet n).card = 0 then .error ()
          else if scoreOf t n > bs ∧ scoreOf t n > 1 / 2
            then findLoop t rest (some n) (scoreOf t n)
          else findLoop t rest b bs from rfl] at h
    by_cases hc0 : max (wordSet t).card (wordSet n).card = 0
    · rw [if_pos hc0] at h
      exact Except.noConfusion h
    · rw [if_neg hc0] at h
      by_cases hcond : scoreOf t n > bs ∧ scoreOf t n > 1 / 2
      · rw [if_pos hcond] at h
        rcases ih (some n) (scoreOf t n) r h with h1 | ⟨m, hm, hmem, hsc⟩
        · exact Or.inr ⟨n, h1, by simp, hcond.2⟩
        · exact Or.inr ⟨m, hm, by simp [hmem], hsc⟩
      · rw [if_neg hcond] at h
        rcases ih b bs r h with h1 | ⟨m, hm, hmem, hsc⟩
        · exact Or.inl h1
        · exact Or.inr ⟨m, hm, by simp [hmem], hsc⟩

/-- Claim C10: a returned match is always a member of the candidate
collection, and when it is not the target itself it shares at least one
word with the target. -/
theorem c10_claim (t : String) (names : List String) (m : String)
    (h : find_matching_name t names = .ok (some m)) :
    m ∈ names ∧ (m ≠ t → ∃ w, w ∈ wordSet t ∧ w ∈ wordSet m) := by
  unfold find_matching_name at h
  by_cases ht : t = ""
  · rw [if_pos ht] at h
    exact Option.noConfusion (Except.ok.inj h)
  · rw [if_neg ht] at h
    by_cases hmem : t ∈ names
    · rw [if_pos hmem] at h
      have h2 : t = m := Option.some.inj (Except.ok.inj h)
      subst h2
      exact ⟨hmem, fun hne => absurd rfl hne⟩
    · rw [if_neg hmem] at h
      rcases findLoop_mem t names none 0 (some m) h with h1 | ⟨m', hm', hmem', hsc⟩
      · exact Option.noConfusion h1
      · have h2 : m = m' := Option.some.inj hm'
        subst h2
        refine ⟨hmem', fun _ => ?_⟩
        have hcard : (wordSet t ∩ wordSet m).card ≠ 0 := by
          intro h0
          rw [scoreOf, h0] at hsc
          norm_num at hsc
        obtain ⟨w, hw⟩ := Finset.card_ne_zero.mp hcard
        have hw2 := Finset.mem_inter.mp hw
        exact ⟨w, hw2.1, hw2.2⟩

/-- Witness for c10_claim. -/
theorem c10_witness :
    find_matching_name "A B" ["A B C"] = .ok (some "A B C") ∧
    "A B C" ∈ ["A B C"] ∧
    ("A B C" ≠ "A B" → ∃ w, w ∈ wordSet "A B" ∧ w ∈ wordSet "A B C") := by
  have hfind : find_matching_name "A B" ["A B C"] = .ok (some "A B C") := by
    with_unfolding_all rfl
  exact ⟨hfind, (c10_claim "A B" ["A B C"] "A B C" hfind).1,
    (c10_claim "A B" ["A B C"] "A B C" hfind).2⟩

/-! ### The attendance reconciler -/

/-- A roster row as built at load time (source lines 92-100): surname,
given names, derived full and normalized names, and the three mutable
attendance fields with their initial values attendance 'F' (absent),
not registered in the form, zero meeting hours. -/
structure Student where
  apellidos : String
  nombres : String
  nombre_completo : String
  nombre_normalizado : String
  asistencia : Char
  en_formulario : Bool
  horas_meet : ℚ
deriving DecidableEq, Repr

/-- Loading one roster row (source lines 92-100). -/
def mkStudent (apellidos nombres : String) : Student :=
  { apellidos := apellidos
    nombres := nombres
    nombre_completo := apellidos ++ " " ++ nombres
    nombre_normalizado := normalize_name (apellidos ++ " " ++ nombres)
    asistencia := 'F'
    en_formulario := false
    horas_meet := 0 }

/-- Python dict as an association list in insertion order: an existing
key keeps its position and gets the new value, a new key is appended. -/
def dictInsert {α : Type} (k : String) (v : α) : List (String × α) → List (String × α)
  | [] => [(k, v)]
  | (k', v') :: rest =>
    if k' = k then (k, v) :: rest else (k', v') :: dictInsert k v rest

/-- Python dict lookup. -/
def dictGet {α : Type} (k : String) : List (String × α) → Option α
  | [] => none
  | (k', v) :: rest => if k' = k then some v else dictGet k rest

theorem dictGet_insert {α : Type} (k : String) (v : α) (d : List (String × α)) :
    dictGet k (dictInsert k v d) = some v := by
  induction d with
  | nil => simp [dictInsert, dictGet]
  | cons p rest ih =>
    obtain ⟨k', v'⟩ := p
    by_cases hk : k' = k
    · simp [dictInsert, hk, dictGet]
    · simp [dictInsert, hk, dictGet, ih]

/-- Building the form index (source lines 126-131): for each extracted
raw name, strip it; a non-blank name is inserted under its normalized
key with the stripped, originally-cased name as value. -/
def buildFormAux : List String → List (String × String) → List (String × String)
  | [], d => d
  | raw :: rest, d =>
    let s := pyStripS raw
    if s = "" then buildFormAux rest d
    else buildFormAux rest (dictInsert (normalize_name s) s d)

/-- Form index from the parsed rows. -/
def buildFormIndex (rows : List String) : List (String × String) :=
  buildFormAux rows []

/-- The monitor/supervisor filter of the meeting loop (source line 172):
a row is skipped when its constructed name is blank or its uppercase
starts with MONITOR or SUPERVISOR. -/
def meetSkip (name : String) : Bool :=
  name = "" || isPrefixOfL ("MONITOR" : String).data (pyUpperS name).data
    || isPrefixOfL ("SUPERVISOR" : String).data (pyUpperS name).data

/-- Building the meeting index (source lines 164-180): each surviving
(name, durationText) row is converted to hours and inserted under the
normalized name (overwriting); a conversion error aborts, as the
exception would. -/
def buildMeetAux : List (String × String) → List (String × ℚ) →
    Except Unit (List (String × ℚ))
  | [], d => .ok d
  | (name, dur) :: rest, d =>
    if meetSkip name then buildMeetAux rest d
    else
      match convert_duration_to_hours dur with
      | .error e => .error e
      | .ok h => buildMeetAux rest (dictInsert (normalize_name name) h d)

/-- Meeting index from the parsed rows. -/
def buildMeetIndex (rows : List (String × String)) : Except Unit (List (String × ℚ)) :=
  buildMeetAux rows []

theorem buildFormAux_cons (raw : String) (rest : List String)
    (d : List (String × String)) :
    buildFormAux (raw :: rest) d
      = if pyStripS raw = "" then buildFormAux rest d
        else buildFormAux rest
          (dictInsert (normalize_name (pyStripS raw)) (pyStripS raw) d) := rfl

theorem buildMeetAux_cons (name dur : String) (rest : List (String × String))
    (d : List (String × ℚ)) :
    buildMeetAux ((name, dur) :: rest) d
      = if meetSkip name then buildMeetAux rest d
        else match convert_duration_to_hours dur with
          | .error e => .error e
          | .ok h => buildMeetAux rest (dictInsert (normalize_name name) h d) := rfl

theorem buildFormAux_append (xs ys : List String) :
    ∀ d, buildFormAux (xs ++ ys) d = buildFormAux ys (buildFormAux xs d) := by
  induction xs with
  | nil => intro d; rfl
  | cons raw rest ih =>
    intro d
    rw [List.cons_append, buildFormAux_cons, buildFormAux_cons]
    by_cases hs : pyStripS raw = ""
    · rw [if_pos hs, if_pos hs, ih]
    · rw [if_neg hs, if_neg hs, ih]

theorem buildMeetAux_append (xs ys : List (String × String)) :
    ∀ d, buildMeetAux (xs ++ ys) d = match buildMeetAux xs d with
      | .error e => .error e
      | .ok d' => buildMeetAux ys d' := by
  induction xs with
  | nil => intro d; rfl
  | cons row rest ih =>
    intro d
    obtain ⟨name, dur⟩ := row
    rw [List.cons_append, buildMeetAux_cons, buildMeetAux_cons]
    by_cases hskip : meetSkip name
    · rw [if_pos hskip, if_pos hskip, ih]
    · rw [if_neg hskip, if_neg hskip]
      cases hconv : convert_duration_to_hours dur with
      | error e => rfl
      | ok h => exact ih _

/-- Claim C8: in the meeting index, two rows whose names normalize to the
same key leave only the last-seen row's duration (the insertion
overwrites, nothing is summed); likewise the form index keeps the
last-seen originally-cased (stripped) name under a duplicated normalized
key. -/
theorem c8_claim :
    (∀ (rows : List (String × String)) (d : List (String × ℚ))
      (n1 d1 n2 d2 : String) (h1 h2 : ℚ),
      buildMeetIndex rows = .ok d →
      meetSkip n1 = false → meetSkip n2 = false →
      convert_duration_to_hours d1 = .ok h1 →
      convert_duration_to_hours d2 = .ok h2 →
      normalize_name n1 = normalize_name n2 →
      buildMeetIndex (rows ++ [(n1, d1), (n2, d2)])
        = .ok (dictInsert (normalize_name n2) h2
            (dictInsert (normalize_name n1) h1 d)) ∧
      dictGet (normalize_name n2)
        (dictInsert (normalize_name n2) h2 (dictInsert (normalize_name n1) h1 d))
        = some h2) ∧
    (∀ (raws : List String) (r1 r2 : String),
      pyStripS r1 ≠ "" → pyStripS r2 ≠ "" →
      normalize_name (pyStripS r1) = normalize_name (pyStripS r2) →
      dictGet (normalize_name (pyStripS r2)) (buildFormIndex (raws ++ [r1, r2]))
        = some (pyStripS r2)) := by
  constructor
  · intro rows d n1 d1 n2 d2 h1 h2 hrows hsk1 hsk2 hc1 hc2 _
    constructor
    · unfold buildMeetIndex at hrows ⊢
      rw [buildMeetAux_append rows [(n1, d1), (n2, d2)], hrows]
      show buildMeetAux [(n1, d1), (n2, d2)] d = _
      rw [buildMeetAux_cons, if_neg (by simp [hsk1]), hc1]
      show buildMeetAux [(n2, d2)] _ = _
      rw [buildMeetAux_cons, if_neg (by simp [hsk2]), hc2]
      rfl
    · exact dictGet_insert _ _ _
  · intro raws r1 r2 hs1 hs2 _
    unfold buildFormIndex
    rw [buildFormAux_append raws [r1, r2], buildFormAux_cons, if_neg hs1,
      buildFormAux_cons, if_neg hs2]
    exact dictGet_insert _ _ _

/-- Witness for c8_claim: two meeting rows and two form rows for the
same person under different spellings; only the second row's value
remains under the shared key. -/
theorem c8_witness :
    buildMeetIndex [("Ana Garcia", "1 h 0 min"), ("ANA  garcia", "2 h 0 min")]
      = .ok (dictInsert (normalize_name "ANA  garcia") (2 : ℚ)
          (dictInsert (normalize_name "Ana Garcia") 1 [])) ∧
    dictGet (normalize_name "ANA  garcia")
      (dictInsert (normalize_name "ANA  garcia") (2 : ℚ)
        (dictInsert (normalize_name "Ana Garcia") 1 [])) = some 2 ∧
    dictGet (normalize_name (pyStripS "ana garcia."))
      (buildFormIndex ["Ana  Garcia", "ana garcia."]) = some (pyStripS "ana garcia.") := by
  have hm := c8_claim.1 [] [] "Ana Garcia" "1 h 0 min" "ANA  garcia" "2 h 0 min" 1 2
    rfl (by decide) (by decide) (by with_unfolding_all rfl) (by with_unfolding_all rfl)
    (by decide)
  have hf := c8_claim.2 [] "Ana  Garcia" "ana garcia." (by decide) (by decide) (by decide)
  exact ⟨hm.1, hm.2, hf⟩

/-- Python truthiness of the matcher's result as used by the source
(None and the empty string are falsy). -/
def pyTruthyStr : Option String → Bool
  | none => false
  | some s => s ≠ ""

/-- Step 1 of the per-student loop (source lines 193-195): a truthy form
match sets en_formulario. -/
def updForm (fm : Option String) (st : Student) : Student :=
  if pyTruthyStr fm then { st with en_formulario := true } else st

/-- Step 2 (source lines 198-200): a truthy meeting match copies that
key's hours from the meeting index; a missing key would be a KeyError,
modelled as Except.error. -/
def updMeet (mm : Option String) (meet : List (String × ℚ)) (st : Student) :
    Except Unit Student :=
  match mm with
  | none => .ok st
  | some m =>
    if m = "" then .ok st
    else
      match dictGet m meet with
      | some h => .ok { st with horas_meet := h }
      | none => .error ()

/-- Step 3 (source lines 203-204): the decision rule sets attendance 'A'
when the student is registered in the form and has enough hours;
otherwise the record is left as it is. -/
def applyDecision (minH : ℚ) (st : Student) : Student :=
  if st.en_formulario = true ∧ minH ≤ st.horas_meet
  then { st with asistencia := 'A' } else st

/-- One iteration of the reconciliation loop (source lines 189-204):
look up the form match and set the flag, look up the meeting match and
copy its hours, then apply the decision rule. -/
def reconcileStudent (formIndex : List (String × String))
    (meetIndex : List (String × ℚ)) (minH : ℚ) (st : Student) :
    Except Unit Student :=
  match find_matching_name st.nombre_normalizado (formIndex.map Prod.fst) with
  | .error e => .error e
  | .ok fm =>
    match find_matching_name (updForm fm st).nombre_normalizado
        (meetIndex.map Prod.fst) with
    | .error e => .error e
    | .ok mm =>
      match updMeet mm meetIndex (updForm fm st) with
      | .error e => .error e
      | .ok st2 => .ok (applyDecision minH st2)

/-- The reconciliation pass over the roster (source line 189), collecting
the mutated records in order. -/
def process_attendance_loop (formIndex : List (String × String))
    (meetIndex : List (String × ℚ)) (minH : ℚ) :
    List Student → Except Unit (List Student)
  | [] => .ok []
  | st :: rest =>
    match reconcileStudent formIndex meetIndex minH st with
    | .error e => .error e
    | .ok st' =>
      match process_attendance_loop formIndex meetIndex minH rest with
      | .error e => .error e
      | .ok rest' => .ok (st' :: rest')

theorem updForm_fields (fm : Option String) (st : Student) :
    (updForm fm st).apellidos = st.apellidos ∧
    (updForm fm st).nombres = st.nombres ∧
    (updForm fm st).nombre_completo = st.nombre_completo ∧
    (updForm fm st).nombre_normalizado = st.nombre_normalizado ∧
    (updForm fm st).asistencia = st.asistencia ∧
    (updForm fm st).horas_meet = st.horas_meet := by
  unfold updForm
  by_cases h : pyTruthyStr fm <;> simp [h]

theorem updMeet_fields (mm : Option String) (meet : List (String × ℚ))
    (st st' : Student) (h : updMeet mm meet st = .ok st') :
    st'.apellidos = st.apellidos ∧
    st'.nombres = st.nombres ∧
    st'.nombre_completo = st.nombre_completo ∧
    st'.nombre_normalizado = st.nombre_normalizado ∧
    st'.asistencia = st.asistencia ∧
    st'.en_formulario = st.en_formulario := by
  unfold updMeet at h
  split at h
  · have h2 : st = st' := Except.ok.inj h
    subst h2
    exact ⟨rfl, rfl, rfl, rfl, rfl, rfl⟩
  · split at h
    · have h2 : st = st' := Except.ok.inj h
      subst h2
      exact ⟨rfl, rfl, rfl, rfl, rfl, rfl⟩
    · split at h
      · have h2 := Except.ok.inj h
        subst h2
        exact ⟨rfl, rfl, rfl, rfl, rfl, rfl⟩
      · exact Except.noConfusion h

theorem applyDecision_fields (minH : ℚ) (st : Student) :
    (applyDecision minH st).apellidos = st.apellidos ∧
    (applyDecision minH st).nombres = st.nombres ∧
    (applyDecision minH st).nombre_completo = st.nombre_completo ∧
    (applyDecision minH st).nombre_normalizado = st.nombre_normalizado ∧
    (applyDecision minH st).en_formulario = st.en_formulario ∧
    (applyDecision minH st).horas_meet = st.horas_meet := by
  unfold applyDecision
  by_cases h : st.en_formulario = true ∧ minH ≤ st.horas_meet <;> simp [h]

/-- Frame of one loop iteration: the four name fields are unchanged. -/
theorem reconcileStudent_frame (formIndex : List (String × String))
    (meetIndex : List (String × ℚ)) (minH : ℚ) (st st' : Student)
    (h : reconcileStudent formIndex meetIndex minH st = .ok st') :
    st'.apellidos = st.apellidos ∧
    st'.nombres = st.nombres ∧
    st'.nombre_completo = st.nombre_completo ∧
    st'.nombre_normalizado = st.nombre_normalizado := by
  unfold reconcileStudent at h
  split at h
  · exact Except.noConfusion h
  · split at h
    · exact Except.noConfusion h
    · split at h
      · exact Except.noConfusion h
      · rename_i x1 fm hfm x2 mm hmm x3 st2 hupd
        have h2 : applyDecision minH st2 = st' := Except.ok.inj h
        subst h2
        have hf := updForm_fields fm st
        have hm := updMeet_fields mm meetIndex (updForm fm st) st2 hupd
        have ha := applyDecision_fields minH st2
        refine ⟨?_, ?_, ?_, ?_⟩
        · rw [ha.1, hm.1, hf.1]
        · rw [ha.2.1, hm.2.1, hf.2.1]
        · rw [ha.2.2.1, hm.2.2.1, hf.2.2.1]
        · rw [ha.2.2.2.1, hm.2.2.2.1, hf.2.2.2.1]

/-- Decision of one loop iteration: starting from the initial 'F', the
final flag is 'A' exactly when the final form and hours fields satisfy
the conjunction, and 'F' otherwise. -/
theorem reconcileStudent_decision (formIndex : List (String × String))
    (meetIndex : List (String × ℚ)) (minH : ℚ) (st st' : Student)
    (h0 : st.asistencia = 'F')
    (h : reconcileStudent formIndex meetIndex minH st = .ok st') :
    (st'.asistencia = 'A' ↔ (st'.en_formulario = true ∧ minH ≤ st'.horas_meet)) ∧
    (¬ (st'.en_formulario = true ∧ minH ≤ st'.horas_meet) → st'.asistencia = 'F') := by
  unfold reconcileStudent at h
  split at h
  · exact Except.noConfusion h
  · split at h
    · exact Except.noConfusion h
    · split at h
      · exact Except.noConfusion h
      · rename_i x1 fm hfm x2 mm hmm x3 st2 hupd
        have h2 : applyDecision minH st2 = st' := Except.ok.inj h
        have hm := updMeet_fields mm meetIndex (updForm fm st) st2 hupd
        have hf := updForm_fields fm st
        have ha := applyDecision_fields minH st2
        have hst2F : st2.asistencia = 'F' := by
          rw [hm.2.2.2.2.1, hf.2.2.2.2.1, h0]
        subst h2
        unfold applyDecision
        by_cases hcond : st2.en_formulario = true ∧ minH ≤ st2.horas_meet
        · rw [if_pos hcond]
          exact ⟨⟨fun _ => hcond, fun _ => rfl⟩, fun hn => absurd hcond hn⟩
        · rw [if_neg hcond]
          refine ⟨⟨fun hA => ?_, fun hc => absurd hc hcond⟩, fun _ => hst2F⟩
          rw [hst2F] at hA
          exact absurd hA (by decide)

/-- Claim C1: after the reconciliation pass over a roster whose records
start with the initial flag 'F' (as the loader sets them), every
resulting record has attendance 'A' if and only if it is registered in
the form and its meeting hours reach the threshold; in every other case
the flag is 'F'. -/
theorem c1_claim (roster : List Student) (formIndex : List (String × String))
    (meetIndex : List (String × ℚ)) (minH : ℚ) (out : List Student)
    (hinit : ∀ st ∈ roster, st.asistencia = 'F')
    (h : process_attendance_loop formIndex meetIndex minH roster = .ok out) :
    ∀ st' ∈ out,
      (st'.asistencia = 'A' ↔ (st'.en_formulario = true ∧ minH ≤ st'.horas_meet)) ∧
      (¬ (st'.en_formulario = true ∧ minH ≤ st'.horas_meet) → st'.asistencia = 'F') := by
  induction roster generalizing out with
  | nil =>
    have h2 : ([] : List Student) = out := Except.ok.inj h
    subst h2
    intro st' hst'
    simp at hst'
  | cons st rest ih =>
    unfold process_attendance_loop at h
    split at h
    · exact Except.noConfusion h
    · split at h
      · exact Except.noConfusion h
      · rename_i x1 st1 hst1 x2 rest1 hrest1
        have h2 : st1 :: rest1 = out := Except.ok.inj h
        subst h2
        intro st' hst'
        rcases List.mem_cons.mp hst' with hh | ht
        · subst hh
          exact reconcileStudent_decision formIndex meetIndex minH st st'
            (hinit st (by simp)) hst1
        · exact ih rest1 (fun s hs => hinit s (by simp [hs])) hrest1 st' ht

/-- Witness for c1_claim: the spec's end-to-end scenario (roster
GARCIA ANA, matching form and meeting entries, 4.5 hours against a
4-hour threshold) yields PRESENT, and the decision equivalence holds on
the resulting record. -/
theorem c1_witness :
    process_attendance_loop [("GARCIA ANA", "Ana Garcia")] [("GARCIA ANA", 9 / 2)] 4
        [mkStudent "GARCIA" "ANA"]
      = .ok [⟨"GARCIA", "ANA", "GARCIA ANA", "GARCIA ANA", 'A', true, 9 / 2⟩] ∧
    ((⟨"GARCIA", "ANA", "GARCIA ANA", "GARCIA ANA", 'A', true, 9 / 2⟩ : Student).asistencia
        = 'A' ↔
      ((⟨"GARCIA", "ANA", "GARCIA ANA", "GARCIA ANA", 'A', true, 9 / 2⟩ : Student).en_formulario
          = true ∧
        (4 : ℚ) ≤ (⟨"GARCIA", "ANA", "GARCIA ANA", "GARCIA ANA", 'A', true,
          9 / 2⟩ : Student).horas_meet)) := by
  have hrun : process_attendance_loop [("GARCIA ANA", "Ana Garcia")]
      [("GARCIA ANA", 9 / 2)] 4 [mkStudent "GARCIA" "ANA"]
      = .ok [⟨"GARCIA", "ANA", "GARCIA ANA", "GARCIA ANA", 'A', true, 9 / 2⟩] := by
    with_unfolding_all rfl
  refine ⟨hrun, ?_⟩
  exact (c1_claim [mkStudent "GARCIA" "ANA"] [("GARCIA ANA", "Ana Garcia")]
    [("GARCIA ANA", 9 / 2)] 4 _ (by decide) hrun _ (List.mem_singleton.mpr rfl)).1

/-- Claim C9: the reconciliation pass only writes the attendance flag,
the form flag and the meeting hours: the output roster has the same
length and order, and every record keeps its surname, given names, full
name and normalized name.  The form and meeting indexes are immutable
values of the embedding, so the pass cannot change them by
construction. -/
theorem c9_claim (roster : List Student) (formIndex : List (String × String))
    (meetIndex : List (String × ℚ)) (minH : ℚ) (out : List Student)
    (h : process_attendance_loop formIndex meetIndex minH roster = .ok out) :
    out.length = roster.length ∧
    ∀ i (hi : i < roster.length) (hi' : i < out.length),
      (out.get ⟨i, hi'⟩).apellidos = (roster.get ⟨i, hi⟩).apellidos ∧
      (out.get ⟨i, hi'⟩).nombres = (roster.get ⟨i, hi⟩).nombres ∧
      (out.get ⟨i, hi'⟩).nombre_completo = (roster.get ⟨i, hi⟩).nombre_completo ∧
      (out.get ⟨i, hi'⟩).nombre_normalizado = (roster.get ⟨i, hi⟩).nombre_normalizado := by
  induction roster generalizing out with
  | nil =>
    have h2 : ([] : List Student) = out := Except.ok.inj h
    subst h2
    exact ⟨rfl, fun i hi _ => absurd hi (Nat.not_lt_zero i)⟩
  | cons st rest ih =>
    unfold process_attendance_loop at h
    split at h
    · exact Except.noConfusion h
    · split at h
      · exact Except.noConfusion h
      · rename_i x1 st1 hst1 x2 rest1 hrest1
        have h2 : st1 :: rest1 = out := Except.ok.inj h
        subst h2
        obtain ⟨ihlen, ihget⟩ := ih rest1 hrest1
        refine ⟨by simp [ihlen], ?_⟩
        intro i hi hi'
        cases i with
        | zero =>
          have hframe := reconcileStudent_frame formIndex meetIndex minH st st1 hst1
          exact ⟨hframe.1, hframe.2.1, hframe.2.2.1, hframe.2.2.2⟩
        | succ j =>
          have hj : j < rest.length := Nat.lt_of_succ_lt_succ hi
          have hj' : j < rest1.length := Nat.lt_of_succ_lt_succ hi'
          exact ihget j hj hj'

/-- Witness for c9_claim on the concrete scenario of c1_witness. -/
theorem c9_witness :
    ([⟨"GARCIA", "ANA", "GARCIA ANA", "GARCIA ANA", 'A', true, 9 / 2⟩] : List Student).length
      = ([mkStudent "GARCIA" "ANA"] : List Student).length ∧
    (([⟨"GARCIA", "ANA", "GARCIA ANA", "GARCIA ANA", 'A', true,
        9 / 2⟩] : List Student).get ⟨0, by decide⟩).nombre_normalizado
      = (([mkStudent "GARCIA" "ANA"] : List Student).get ⟨0, by decide⟩).nombre_normalizado := by
  have hrun : process_attendance_loop [("GARCIA ANA", "Ana Garcia")]
      [("GARCIA ANA", 9 / 2)] 4 [mkStudent "GARCIA" "ANA"]
      = .ok [⟨"GARCIA", "ANA", "GARCIA ANA", "GARCIA ANA", 'A', true, 9 / 2⟩] := by
    with_unfolding_all rfl
  have hc9 := c9_claim [mkStudent "GARCIA" "ANA"] [("GARCIA ANA", "Ana Garcia")]
    [("GARCIA ANA", 9 / 2)] 4 _ hrun
  exact ⟨hc9.1, (hc9.2 0 (by decide) (by decide)).2.2.2⟩
